import Mathlib

/-!
Verification of the three classical ciphers implemented in
`CSC314_2023_Fall_PorsheEismann_PlayfairCypher.py`: Playfair, Rail Fence and
monoalphabetic Substitution.

The Python code is embedded shallowly:
* strings become `String` / `List Char`;
* fallible operations (`str.index`, list indexing / assignment, arithmetic on
  `None`) become `Option`-valued functions, where `none` models the Python
  exception (`ValueError`, `IndexError`, `TypeError`);
* Python `list` indexing (which accepts one level of negative wrap-around and
  raises otherwise) is modelled by `pyGet` / `pySet`;
* `sorted(set(xs), key=f)` with an injective key function `f` is modelled as
  `List.insertionSort` over `List.dedup xs`: since all keys are distinct the
  result is the unique enumeration sorted by `f`, independent of set order,
  and the sort key `str.index` raising `ValueError` is modelled by a guard
  that checks every element is present before sorting.
-/

namespace PlayfairRepo

/-! ## Char facts used throughout -/

theorem char_toNat_ofNat_valid (n : Nat) (h : n.isValidChar) :
    (Char.ofNat n).toNat = n := by
  rw [Char.ofNat, dif_pos h]
  rfl

theorem char_isLower_iff (c : Char) :
    c.isLower = true ↔ 97 ≤ c.toNat ∧ c.toNat ≤ 122 := by
  simp only [Char.isLower, ge_iff_le, Bool.and_eq_true, decide_eq_true_eq]
  constructor
  · rintro ⟨ha, hb⟩
    have ha2 : (97 : UInt32) ≤ c.val := ha
    have hb2 : c.val ≤ (122 : UInt32) := hb
    rw [UInt32.le_def, BitVec.le_def] at ha2 hb2
    exact ⟨by simpa using ha2, by simpa using hb2⟩
  · rintro ⟨ha, hb⟩
    constructor
    · show (97 : UInt32) ≤ c.val
      rw [UInt32.le_def, BitVec.le_def]
      simpa using ha
    · show c.val ≤ (122 : UInt32)
      rw [UInt32.le_def, BitVec.le_def]
      simpa using hb

theorem char_isUpper_iff (c : Char) :
    c.isUpper = true ↔ 65 ≤ c.toNat ∧ c.toNat ≤ 90 := by
  simp only [Char.isUpper, ge_iff_le, Bool.and_eq_true, decide_eq_true_eq]
  constructor
  · rintro ⟨ha, hb⟩
    have ha2 : (65 : UInt32) ≤ c.val := ha
    have hb2 : c.val ≤ (90 : UInt32) := hb
    rw [UInt32.le_def, BitVec.le_def] at ha2 hb2
    exact ⟨by simpa using ha2, by simpa using hb2⟩
  · rintro ⟨ha, hb⟩
    constructor
    · show (65 : UInt32) ≤ c.val
      rw [UInt32.le_def, BitVec.le_def]
      simpa using ha
    · show c.val ≤ (90 : UInt32)
      rw [UInt32.le_def, BitVec.le_def]
      simpa using hb

theorem char_toUpper_isUpper (c : Char) (h : c.isAlpha = true) :
    c.toUpper.isUpper = true := by
  simp only [Char.isAlpha, Bool.or_eq_true] at h
  rw [Char.toUpper]
  by_cases hl : c.toNat ≥ 97 ∧ c.toNat ≤ 122
  · rw [if_pos hl]
    have hv : (c.toNat - 32).isValidChar := by
      left
      omega
    rw [char_isUpper_iff, char_toNat_ofNat_valid _ hv]
    omega
  · rw [if_neg hl]
    rcases h with h1 | h2
    · exact h1
    · exact absurd ((char_isLower_iff c).mp h2) hl

theorem char_toUpper_isAlpha (c : Char) (h : c.isAlpha = true) :
    c.toUpper.isAlpha = true := by
  simp only [Char.isAlpha, Bool.or_eq_true]
  exact Or.inl (char_toUpper_isUpper c h)

/-! ## Playfair cipher

Embedding of class `PlayfairCipher` (source lines 3-76).

`__init__` computes
`self.key = ''.join(sorted(set(key.upper()), key=lambda x: key.lower().index(x)))`.
`str.index` raises `ValueError` when the looked-up character is absent, so key
derivation is `Option`-valued: it succeeds only when every distinct character
of `key.upper()` occurs in `key.lower()`.  The sort keys of distinct
characters are distinct first-occurrence indices, so the sorted result does
not depend on the iteration order of the Python `set`; we therefore model
`set(...)` by `List.dedup` and `sorted(..., key=...)` by `List.insertionSort`.
-/

def playfairKeyDerive (key : String) : Option String :=
  let upper := key.data.map Char.toUpper
  let lower := key.data.map Char.toLower
  let elems := upper.dedup
  if elems.all (fun c => lower.contains c) then
    some (String.mk (List.insertionSort
      (fun a b => lower.indexOf a ≤ lower.indexOf b) elems))
  else none

/-- `self.key_matrix = [self.key[i:i + 5] for i in range(0, len(self.key), 5)]`:
successive slices of five characters, the last slice possibly shorter. -/
def chunk5 : List Char → List (List Char)
  | [] => []
  | [a] => [[a]]
  | [a, b] => [[a, b]]
  | [a, b, c] => [[a, b, c]]
  | [a, b, c, d] => [[a, b, c, d]]
  | a :: b :: c :: d :: e :: rest => [a, b, c, d, e] :: chunk5 rest

/-- State of a constructed `PlayfairCipher` instance: fields `key`,
`key_matrix` and `alphabet` set by `__init__`. -/
structure PlayfairCipher where
  key : String
  key_matrix : List (List Char)
  alphabet : String
deriving DecidableEq

def PlayfairCipher.init (key : String) : Option PlayfairCipher :=
  (playfairKeyDerive key).map fun k =>
    { key := k, key_matrix := chunk5 k.data, alphabet := "ABCDEFGHIKLMNOPQRSTUVWXYZ" }

/-- Row scan of `find_positions`: returns `(row_idx, row.index(char))` for the
first row containing `char`, and `(None, None)` when no row does. -/
def findPositionsAux (c : Char) : List (List Char) → Nat → Option Nat × Option Nat
  | [], _ => (none, none)
  | row :: rest, i =>
    if row.contains c then (some i, some (row.indexOf c))
    else findPositionsAux c rest (i + 1)

def PlayfairCipher.find_positions (P : PlayfairCipher) (c : Char) :
    Option Nat × Option Nat :=
  findPositionsAux c P.key_matrix 0

/-- `process_text` (source lines 31-44): keep alphabetic characters, uppercase
them, and append `'X'` when the resulting length is odd. -/
def process_text (text : String) : String :=
  String.mk
    (if ((text.data.filter Char.isAlpha).map Char.toUpper).length % 2 = 1
     then (text.data.filter Char.isAlpha).map Char.toUpper ++ ['X']
     else (text.data.filter Char.isAlpha).map Char.toUpper)

/-- One iteration of the pair loop in `transform` (source lines 59-74).
Python compares the possibly-`None` coordinates with `==` (where
`None == None` is `True`), then performs arithmetic / indexing that raises
`TypeError` on a `None` operand; those failures are `none` here.  The final
`if mode == "encrypt"` has two identical branches, exactly as in the source. -/
def PlayfairCipher.pairStep (P : PlayfairCipher) (c1 c2 : Char) (mode : String) :
    Option (List Char) :=
  let p1 := P.find_positions c1
  let p2 := P.find_positions c2
  let step : Option (Option Nat × Option Nat × Option Nat × Option Nat) :=
    if p1.1 = p2.1 then
      match p1.2, p2.2 with
      | some a, some b => some (p1.1, some ((a + 1) % 5), p2.1, some ((b + 1) % 5))
      | _, _ => none
    else if p1.2 = p2.2 then
      match p1.1, p2.1 with
      | some a, some b => some (some ((a + 1) % 5), p1.2, some ((b + 1) % 5), p2.2)
      | _, _ => none
    else
      some (p1.1, p2.2, p2.1, p1.2)
  step.bind fun q =>
    match q with
    | (some a, some b, some c, some d) =>
      (P.key_matrix[a]?).bind fun rowA =>
        (rowA[b]?).bind fun ch1 =>
          (P.key_matrix[c]?).bind fun rowB =>
            (rowB[d]?).bind fun ch2 =>
              if mode = "encrypt" then some [ch1, ch2] else some [ch1, ch2]
    | _ => none

/-- The `for i in range(0, len(text), 2)` loop of `transform`; a trailing
unpaired character would make `text[i + 1]` raise `IndexError` (`none`),
though `process_text` always produces even length. -/
def PlayfairCipher.transformLoop (P : PlayfairCipher) (mode : String) :
    List Char → Option (List Char)
  | [] => some []
  | [_] => none
  | c1 :: c2 :: rest =>
    (P.pairStep c1 c2 mode).bind fun s =>
      (P.transformLoop mode rest).bind fun r => some (s ++ r)

def PlayfairCipher.transform (P : PlayfairCipher) (text : String) (mode : String) :
    Option String :=
  (P.transformLoop mode (process_text text).data).map String.mk

/-! ## Python list indexing

`l[i]` and `l[i] = x` on a Python list accept one level of negative
wrap-around (`-len(l) ≤ i < 0` addresses `i + len(l)`) and raise `IndexError`
otherwise; `IndexError` is modelled by `none`. -/

def pyGet {α : Type} (l : List α) (i : Int) : Option α :=
  if i < 0 then
    if 0 ≤ i + (l.length : Int) then l[(i + (l.length : Int)).toNat]? else none
  else l[i.toNat]?

def pySet {α : Type} (l : List α) (i : Int) (a : α) : Option (List α) :=
  if i < 0 then
    if 0 ≤ i + (l.length : Int) then some (l.set (i + (l.length : Int)).toNat a) else none
  else if i < (l.length : Int) then some (l.set i.toNat a) else none

/-! ## Rail Fence cipher

Embedding of class `RailFence` (source lines 78-130).  Rail counter and
direction are Python ints (`Int` here); the `rails` count is a natural
number.  Note the source's `encrypt` writes every character to
`fence[rail][len(fence[rail]) - len(plaintext)]`; since every row keeps
length `len(plaintext)`, that column index is always `0`. -/

namespace RailFence

/-- The body of `encrypt`'s `for char in plaintext` loop (source lines
99-106), threading the fence, current rail and direction. -/
def encryptLoop (rails : Nat) (N : Nat) :
    List Char → List (List Char) → Int → Int → Option (List (List Char))
  | [], fence, _, _ => some fence
  | ch :: rest, fence, rail, dir =>
    (pyGet fence rail).bind fun row =>
      (pySet row ((row.length : Int) - (N : Int)) ch).bind fun row2 =>
        (pySet fence rail row2).bind fun fence2 =>
          encryptLoop rails N rest fence2 (rail + dir)
            (if rail + dir = (rails : Int) - 1 ∨ rail + dir = 0 then -dir else dir)

def encrypt (rails : Nat) (plaintext : String) : Option String :=
  let fence := List.replicate rails (List.replicate plaintext.length ' ')
  (encryptLoop rails plaintext.length plaintext.data fence 0 1).map
    (fun f => String.mk f.flatten)

/-- The body of `decrypt`'s `for _ in range(len(fence[0]))` loop (source
lines 123-128): read `fence[rail][0]`, bounce the rail, then assign
`fence[rail][0] = ' '` at the updated rail. -/
def decryptLoop (rails : Nat) :
    Nat → List (List Char) → Int → Int → List Char → Option (List Char)
  | 0, _, _, _, acc => some acc
  | n + 1, fence, rail, dir, acc =>
    (pyGet fence rail).bind fun row =>
      (pyGet row (0 : Int)).bind fun c =>
        (pyGet fence (rail + dir)).bind fun rowB =>
          (pySet rowB (0 : Int) ' ').bind fun rowB2 =>
            (pySet fence (rail + dir) rowB2).bind fun fence2 =>
              decryptLoop rails n fence2 (rail + dir)
                (if rail + dir = (rails : Int) - 1 ∨ rail + dir = 0 then -dir else dir)
                (acc ++ [c])

def decrypt (rails : Nat) (ciphertext : String) : Option String :=
  let fence := List.replicate rails (List.replicate ciphertext.length ' ')
  (pyGet fence (0 : Int)).bind fun row0 =>
    (decryptLoop rails row0.length fence 0 1 []).map String.mk

end RailFence

/-! ## Substitution cipher

Embedding of class `Substitution` (source lines 132-158).  The derived key is
`sorted(set(password.lower().replace(" ", "")), key=lambda x:
password.lower().index(x))` joined with `[ch for ch in self.alphabet if ch
not in password]`; note the final membership test is against the *original*
`password`, not its lowercasing.  As for Playfair, the fallible `str.index`
sort key is modelled by a presence guard, and `sorted`/`set` by
`insertionSort`/`dedup` (all sort keys are distinct). -/

def substAlphabet : String := "abcdefghijklmnopqrstuvwxyz"

/-- The first summand of the key:
`sorted(set(password.lower().replace(" ", "")), key=lambda x:
password.lower().index(x))`. -/
def substKeyHead (password : String) : List Char :=
  List.insertionSort
    (fun a b => (password.data.map Char.toLower).indexOf a ≤
      (password.data.map Char.toLower).indexOf b)
    (((password.data.map Char.toLower).filter (fun c => c != ' ')).dedup)

/-- The second summand of the key:
`[ch for ch in self.alphabet if ch not in password]` — the membership test
is against the original `password`. -/
def substKeyTail (password : String) : List Char :=
  substAlphabet.data.filter (fun ch => !(password.data.contains ch))

def substKey (password : String) : Option String :=
  if (((password.data.map Char.toLower).filter (fun c => c != ' ')).dedup).all
      (fun c => (password.data.map Char.toLower).contains c) then
    some (String.mk (substKeyHead password ++ substKeyTail password))
  else none

/-- The character loop of `Substitution.transform` (source lines 155-158):
`self.key[self.alphabet.index(ch)] if ch in self.alphabet else ch`.  The
positional lookup `self.key[...]` would raise `IndexError` (`none`) if the
key were shorter than the looked-up index; `mode` is never consulted. -/
def substLoop (key : String) : List Char → Option (List Char)
  | [] => some []
  | ch :: rest =>
    (if substAlphabet.data.contains ch then
       key.data[substAlphabet.data.indexOf ch]?
     else some ch).bind fun c =>
      (substLoop key rest).bind fun r => some (c :: r)

def Substitution.transform (key : String) (text : String) (mode : String) :
    Option String :=
  (substLoop key text.data).map String.mk

/-! ## Helper lemmas about `pyGet` / `pySet` on all-blank fences -/

theorem pyGet_replicate {α : Type} (a : α) (n : Nat) (i : Int)
    (h0 : 0 ≤ i) (h1 : i < (n : Int)) :
    pyGet (List.replicate n a) i = some a := by
  have hne : ¬ i < 0 := by omega
  simp only [pyGet, if_neg hne]
  exact List.getElem?_replicate_of_lt (by omega)

theorem pySet_replicate {α : Type} (a : α) (n : Nat) (i : Int)
    (h0 : 0 ≤ i) (h1 : i < (n : Int)) :
    pySet (List.replicate n a) i a = some (List.replicate n a) := by
  have hne : ¬ i < 0 := by omega
  simp only [pySet, List.length_replicate, if_neg hne]
  rw [if_pos h1, List.set_replicate_self]

/-- On an all-blank fence the `decrypt` loop only ever reads and writes
blanks, so it appends `n` blanks to the accumulator; the rail index stays in
range thanks to the bounce invariant. -/
theorem RailFence.decryptLoop_blank (rails : Nat) (h2 : 2 ≤ rails) :
    ∀ (n N : Nat) (rail dir : Int) (acc : List Char), n ≤ N →
      0 ≤ rail → rail ≤ (rails : Int) - 1 →
      (dir = 1 ∧ rail ≤ (rails : Int) - 2 ∨ dir = -1 ∧ 1 ≤ rail) →
      RailFence.decryptLoop rails n (List.replicate rails (List.replicate N ' '))
          rail dir acc = some (acc ++ List.replicate n ' ') := by
  intro n
  induction n with
  | zero =>
    intro N rail dir acc _ _ _ _
    simp [RailFence.decryptLoop]
  | succ n ih =>
    intro N rail dir acc hnN h0 h1 hinv
    have hrails : (2 : Int) ≤ (rails : Int) := by exact_mod_cast h2
    have hN : 0 < (N : Int) := by omega
    have hb0 : 0 ≤ rail + dir := by omega
    have hb1 : rail + dir < (rails : Int) := by omega
    have e1 : pyGet (List.replicate rails (List.replicate N ' ')) rail
        = some (List.replicate N ' ') := pyGet_replicate _ rails rail h0 (by omega)
    have e2 : pyGet (List.replicate N ' ') (0 : Int) = some ' ' :=
      pyGet_replicate ' ' N 0 (by omega) hN
    have e3 : pyGet (List.replicate rails (List.replicate N ' ')) (rail + dir)
        = some (List.replicate N ' ') := pyGet_replicate _ rails _ hb0 hb1
    have e4 : pySet (List.replicate N ' ') (0 : Int) ' ' = some (List.replicate N ' ') :=
      pySet_replicate ' ' N 0 (by omega) hN
    have e5 : pySet (List.replicate rails (List.replicate N ' ')) (rail + dir)
          (List.replicate N ' ')
        = some (List.replicate rails (List.replicate N ' ')) :=
      pySet_replicate _ rails _ hb0 hb1
    have hinv2 : ((if rail + dir = (rails : Int) - 1 ∨ rail + dir = 0 then -dir else dir) = 1 ∧
          rail + dir ≤ (rails : Int) - 2) ∨
        ((if rail + dir = (rails : Int) - 1 ∨ rail + dir = 0 then -dir else dir) = -1 ∧
          1 ≤ rail + dir) := by
      by_cases hc : rail + dir = (rails : Int) - 1 ∨ rail + dir = 0
      · rw [if_pos hc]
        omega
      · rw [if_neg hc]
        push_neg at hc
        omega
    simp only [RailFence.decryptLoop, e1, e2, e3, e4, e5, Option.some_bind]
    rw [ih N (rail + dir) _ (acc ++ [' ']) (by omega) hb0 (by omega) hinv2]
    rw [List.append_assoc]
    rw [List.replicate_succ]
    simp

theorem RailFence.decrypt_eq_blanks (rails : Nat) (h2 : 2 ≤ rails) (c : String) :
    RailFence.decrypt rails c = some (String.mk (List.replicate c.length ' ')) := by
  have hrails : (0 : Int) < (rails : Int) := by
    have : (2 : Int) ≤ (rails : Int) := by exact_mod_cast h2
    omega
  have hinv : (1 : Int) = 1 ∧ (0 : Int) ≤ (rails : Int) - 2 ∨ (1 : Int) = -1 ∧ (1 : Int) ≤ 0 := by
    left
    constructor
    · rfl
    · have : (2 : Int) ≤ (rails : Int) := by exact_mod_cast h2
      omega
  simp only [RailFence.decrypt, pyGet_replicate _ rails 0 (by omega) hrails,
    Option.some_bind, List.length_replicate]
  rw [RailFence.decryptLoop_blank rails h2 c.length c.length 0 1 []
    (Nat.le_refl _) (by omega) (by omega) hinv]
  simp

theorem railfence_encrypt_empty (rails : Nat) : RailFence.encrypt rails "" = some "" := by
  have hd : ("" : String).data = [] := rfl
  have hl : ("" : String).length = 0 := rfl
  simp only [RailFence.encrypt, hd, hl, RailFence.encryptLoop, Option.map_some',
    List.replicate_zero, List.flatten_replicate_nil]

theorem railfence_decrypt_empty (rails : Nat) (h2 : 2 ≤ rails) :
    RailFence.decrypt rails "" = some "" := by
  have := RailFence.decrypt_eq_blanks rails h2 ""
  simpa using this

/-! ## Playfair mode irrelevance -/

theorem pairStep_mode_irrelevant (P : PlayfairCipher) (c1 c2 : Char) (m m2 : String) :
    P.pairStep c1 c2 m = P.pairStep c1 c2 m2 := by
  unfold PlayfairCipher.pairStep
  simp only [ite_self]

theorem transformLoop_mode_irrelevant (P : PlayfairCipher) (m m2 : String) :
    ∀ l : List Char, P.transformLoop m l = P.transformLoop m2 l
  | [] => rfl
  | [c] => rfl
  | c1 :: c2 :: rest => by
    simp only [PlayfairCipher.transformLoop]
    rw [pairStep_mode_irrelevant P c1 c2 m m2,
      transformLoop_mode_irrelevant P m m2 rest]

/-! ## The claims -/

/-- Claim C1 (code bug): the claim says construction of `PlayfairCipher(key)`
succeeds for every non-empty key, but the sort key `key.lower().index(x)` is
applied to the characters of `set(key.upper())`, so any key containing a
letter raises `ValueError`; only keys without cased characters survive. -/
theorem claim1_playfair_key_derivation_raises :
    PlayfairCipher.init "A" = none ∧ PlayfairCipher.init "KEY" = none ∧
      (PlayfairCipher.init "123").isSome = true := by
  refine ⟨by decide, by decide, by decide⟩

/-- Claim C2 (code bug): Rail Fence decryption does not invert encryption.
With 2 rails, `encrypt "AB" = "A B "` (each character is written at column 0
of its rail, the rest of the fence stays blank) and `decrypt "A B " = "    "`
(the decrypt loop only ever reads blanks), which differs from `"AB"`. -/
theorem claim2_railfence_roundtrip_fails :
    RailFence.encrypt 2 "AB" = some "A B " ∧
      RailFence.decrypt 2 "A B " = some "    " ∧ ("    " : String) ≠ "AB" := by
  refine ⟨by decide, by decide, by decide⟩

/-- Claim C3 (code bug): Rail Fence encryption is not a permutation of its
input: the fence column index `len(fence[rail]) - len(plaintext)` is always
`0`, so characters overwrite each other at column 0 and the returned string
is the whole `rails × N` fence; for `rails = 2` and input `"AB"` the output
is `"A B "`, of length 4 rather than 2. -/
theorem claim3_railfence_encrypt_not_permutation :
    RailFence.encrypt 2 "AB" = some "A B " ∧
      ("A B " : String).length ≠ ("AB" : String).length ∧
      ¬ ("A B " : String).data.Perm ("AB" : String).data := by
  refine ⟨by decide, by decide, fun h => absurd h.length_eq (by decide)⟩

/-- Claim C5 (confirmed): the `mode` argument never changes the output of
`PlayfairCipher.transform` or `Substitution.transform` — both branches of
Playfair's `if mode == "encrypt"` are identical and Substitution ignores
`mode` altogether. -/
theorem claim5_mode_does_not_affect_output :
    (∀ (P : PlayfairCipher) (text : String),
      P.transform text "encrypt" = P.transform text "decrypt") ∧
    (∀ key text : String,
      Substitution.transform key text "encrypt" = Substitution.transform key text "decrypt") := by
  constructor
  · intro P text
    unfold PlayfairCipher.transform
    rw [transformLoop_mode_irrelevant P "encrypt" "decrypt"]
  · intro key text
    rfl

/-- Claim C7 (code bug): a character absent from the key matrix does make
`transform` fail, but not with a defined `InvalidCharacter` error: no such
error exists in the code.  `find_positions` returns the undefined position
`(None, None)`, which flows into the `row1 == row2` comparison and the
subsequent `(col1 + 1) % 5` arithmetic, where Python dies with `TypeError`
(modelled as the undefined failure `none`).  With key `"123"` (one of the
few keys whose construction succeeds) every letter is absent from the
matrix, so `transform("AB", "encrypt")` fails this way. -/
theorem claim7_absent_char_propagates_undefined_position :
    (PlayfairCipher.init "123").isSome = true ∧
      (PlayfairCipher.init "123").map (fun P => P.find_positions 'A') = some (none, none) ∧
      (PlayfairCipher.init "123").bind (fun P => P.transform "AB" "encrypt") = none := by
  refine ⟨by decide, by decide, by decide⟩

/-- Claim C8 (confirmed): empty text yields empty output for all three
ciphers — Playfair (for any constructed instance, any mode), Rail Fence
encrypt and decrypt (any rail count at least 2), Substitution (any key, any
mode) — and `process_text` inserts no padding into an empty string. -/
theorem claim8_empty_text_empty_output :
    (∀ (P : PlayfairCipher) (mode : String), P.transform "" mode = some "") ∧
    (∀ rails : Nat, 2 ≤ rails →
      RailFence.encrypt rails "" = some "" ∧ RailFence.decrypt rails "" = some "") ∧
    (∀ key mode : String, Substitution.transform key "" mode = some "") ∧
    process_text "" = "" := by
  refine ⟨fun P mode => rfl,
    fun rails h2 => ⟨railfence_encrypt_empty rails, railfence_decrypt_empty rails h2⟩,
    fun key mode => rfl, rfl⟩

/-- Witness for C8: the rail-count hypothesis is satisfiable, e.g. at 2. -/
theorem claim8_witness :
    2 ≤ 2 ∧ RailFence.encrypt 2 "" = some "" ∧ RailFence.decrypt 2 "" = some "" :=
  ⟨by decide, (claim8_empty_text_empty_output.2.1 2 (by decide)).1,
    (claim8_empty_text_empty_output.2.1 2 (by decide)).2⟩

/-- Claim C10 (confirmed): `RailFence.decrypt` reads only blank fence cells,
so its output is a run of blanks whose length is the ciphertext length — two
ciphertexts of equal length decrypt identically for any rail count at least
2. -/
theorem claim10_decrypt_depends_only_on_length (rails : Nat) (c1 c2 : String)
    (h2 : 2 ≤ rails) (hlen : c1.length = c2.length) :
    RailFence.decrypt rails c1 = RailFence.decrypt rails c2 := by
  rw [RailFence.decrypt_eq_blanks rails h2 c1, RailFence.decrypt_eq_blanks rails h2 c2, hlen]

/-- Witness for C10 at rail count 2 and ciphertexts of equal length 2. -/
theorem claim10_witness :
    2 ≤ 2 ∧ ("xy" : String).length = ("qr" : String).length ∧
      RailFence.decrypt 2 "xy" = RailFence.decrypt 2 "qr" :=
  ⟨by decide, by decide, claim10_decrypt_depends_only_on_length 2 "xy" "qr" (by decide) (by decide)⟩

/-! ## Substitution key facts -/

/-- The sort-key guard of `substKey` always holds: every character kept by
`replace(" ", "")` came from `password.lower()`, so `str.index` never
raises. -/
theorem substKey_eq (password : String) :
    substKey password = some (String.mk (substKeyHead password ++ substKeyTail password)) := by
  unfold substKey
  have hguard : ∀ c ∈ ((password.data.map Char.toLower).filter (fun c => c != ' ')).dedup,
      ((password.data.map Char.toLower).contains c) = true := by
    intro c hc
    have hc2 := List.mem_filter.mp (List.mem_dedup.mp hc)
    simpa [List.contains] using hc2.1
  rw [if_pos (List.all_eq_true.mpr hguard)]

theorem substAlphabet_nodup : substAlphabet.data.Nodup := by decide

/-- The derived key always has at least 26 characters: the tail misses only
alphabet letters literally present in `password`, and each such letter is a
distinct member of the head. -/
theorem substKey_length (password : String) :
    26 ≤ (substKeyHead password ++ substKeyTail password).length := by
  have hsplit : substAlphabet.data.length =
      (substAlphabet.data.filter (fun ch => password.data.contains ch)).length +
      (substAlphabet.data.filter (fun ch => !(password.data.contains ch))).length :=
    List.length_eq_length_filter_add (fun ch => password.data.contains ch)
  have hsub : (substAlphabet.data.filter (fun ch => password.data.contains ch)) ⊆
      substKeyHead password := by
    intro c hc
    rcases List.mem_filter.mp hc with ⟨hcal, hcpw⟩
    have hcpw2 : c ∈ password.data := by simpa [List.contains] using hcpw
    have hlfix : Char.toLower c = c := by
      have hfix : ∀ x ∈ substAlphabet.data, Char.toLower x = x := by decide
      exact hfix c hcal
    have hclower : c ∈ password.data.map Char.toLower :=
      List.mem_map.mpr ⟨c, hcpw2, hlfix⟩
    have hcne : (c != ' ') = true := by
      have hne : c ≠ ' ' := by
        intro hsp
        rw [hsp] at hcal
        exact absurd hcal (by decide)
      simpa using hne
    have hmem1 : c ∈ ((password.data.map Char.toLower).filter (fun c => c != ' ')).dedup :=
      List.mem_dedup.mpr (List.mem_filter.mpr ⟨hclower, hcne⟩)
    exact (List.mem_insertionSort _).mpr hmem1
  have hnodupfil : (substAlphabet.data.filter (fun ch => password.data.contains ch)).Nodup :=
    substAlphabet_nodup.filter _
  have hle : (substAlphabet.data.filter (fun ch => password.data.contains ch)).length ≤
      (substKeyHead password).length :=
    (List.subperm_of_subset hnodupfil hsub).length_le
  have h26 : substAlphabet.data.length = 26 := by decide
  have htail : (substKeyTail password).length =
      (substAlphabet.data.filter (fun ch => !(password.data.contains ch))).length := rfl
  rw [List.length_append, htail]
  omega

/-- The `transform` loop never hits an out-of-bounds key lookup when the key
has at least 26 characters. -/
theorem substLoop_isSome (key : String) (hk : 26 ≤ key.data.length) :
    ∀ l : List Char, (substLoop key l).isSome = true
  | [] => rfl
  | ch :: rest => by
    have hrest := substLoop_isSome key hk rest
    obtain ⟨r, hr⟩ := Option.isSome_iff_exists.mp hrest
    simp only [substLoop]
    by_cases hmem : substAlphabet.data.contains ch = true
    · rw [if_pos hmem]
      have hch : ch ∈ substAlphabet.data := by simpa [List.contains] using hmem
      have hidx : substAlphabet.data.indexOf ch < substAlphabet.data.length :=
        List.indexOf_lt_length.mpr hch
      have hlen : substAlphabet.data.length = 26 := by decide
      have hbound : substAlphabet.data.indexOf ch < key.data.length := by omega
      rw [List.getElem?_eq_getElem hbound, Option.some_bind, hr, Option.some_bind]
      rfl
    · rw [if_neg hmem, Option.some_bind, hr, Option.some_bind]
      rfl

/-- Claim C9 (confirmed): `Substitution` is total — for every password
(including the empty one) key derivation succeeds, the derived key has at
least 26 characters, and `transform` never fails on any text in any mode. -/
theorem claim9_substitution_transform_total (password : String) :
    ∃ k, substKey password = some k ∧ 26 ≤ k.length ∧
      ∀ text mode : String, (Substitution.transform k text mode).isSome = true := by
  refine ⟨String.mk (substKeyHead password ++ substKeyTail password),
    substKey_eq password, substKey_length password, ?_⟩
  intro text mode
  unfold Substitution.transform
  rw [Option.isSome_map']
  exact substLoop_isSome _ (substKey_length password) text.data

/-- Counterexample for C4: for password `"A"` the membership test
`ch not in password` compares lowercase alphabet letters against the
uppercase `'A'`, so no letter is removed from the tail and the derived key
is the 27-character string `"aabcdefghijklmnopqrstuvwxyz"` — not a
permutation of the 26 lowercase letters. -/
theorem claim4_counterexample_password_A :
    substKey "A" = some "aabcdefghijklmnopqrstuvwxyz" ∧
      ¬ ("aabcdefghijklmnopqrstuvwxyz" : String).data.Perm substAlphabet.data := by
  refine ⟨by decide, fun h => absurd h.length_eq (by decide)⟩

/-- Claim C4 (corrected): the derived key is a permutation of the 26
lowercase letters for every non-empty password consisting only of lowercase
letters and spaces (for other passwords, such as `"A"`, it need not be). -/
theorem claim4_amended_lowercase_password_key_perm (password : String)
    (hne : password ≠ "")
    (hchars : ∀ c ∈ password.data, c = ' ' ∨ c ∈ substAlphabet.data) :
    ∃ k, substKey password = some k ∧ k.data.Perm substAlphabet.data := by
  refine ⟨_, substKey_eq password, ?_⟩
  show (substKeyHead password ++ substKeyTail password).Perm substAlphabet.data
  have hlow : password.data.map Char.toLower = password.data := by
    conv_rhs => rw [← List.map_id password.data]
    apply List.map_congr_left
    intro c hc
    rcases hchars c hc with h | h
    · rw [h]
      decide
    · have hfix : ∀ x ∈ substAlphabet.data, Char.toLower x = x := by decide
      exact hfix c h
  have hhead_mem : ∀ c, c ∈ substKeyHead password ↔ (c ∈ password.data ∧ c ≠ ' ') := by
    intro c
    unfold substKeyHead
    rw [hlow, List.mem_insertionSort, List.mem_dedup, List.mem_filter]
    simp
  have htail_mem : ∀ c, c ∈ substKeyTail password ↔
      (c ∈ substAlphabet.data ∧ c ∉ password.data) := by
    intro c
    unfold substKeyTail
    rw [List.mem_filter]
    simp [List.contains]
  have hhead_nodup : (substKeyHead password).Nodup := by
    unfold substKeyHead
    exact (List.perm_insertionSort _ _).nodup_iff.mpr (List.nodup_dedup _)
  have htail_nodup : (substKeyTail password).Nodup := substAlphabet_nodup.filter _
  have hdisj : List.Disjoint (substKeyHead password) (substKeyTail password) := by
    intro c hc1 hc2
    exact ((htail_mem c).mp hc2).2 ((hhead_mem c).mp hc1).1
  rw [List.perm_ext_iff_of_nodup (hhead_nodup.append htail_nodup hdisj) substAlphabet_nodup]
  intro a
  rw [List.mem_append, hhead_mem, htail_mem]
  constructor
  · rintro (⟨hpw, hsp⟩ | ⟨hal, _⟩)
    · rcases hchars a hpw with h | h
      · exact absurd h hsp
      · exact h
    · exact hal
  · intro hal
    by_cases hpw : a ∈ password.data
    · left
      refine ⟨hpw, ?_⟩
      intro hsp
      rw [hsp] at hal
      exact absurd hal (by decide)
    · right
      exact ⟨hal, hpw⟩

/-- Witness for the amended C4 at the password `"key"`. -/
theorem claim4_witness :
    ("key" : String) ≠ "" ∧ (∀ c ∈ ("key" : String).data, c = ' ' ∨ c ∈ substAlphabet.data) ∧
      ∃ k, substKey "key" = some k ∧ k.data.Perm substAlphabet.data :=
  ⟨by decide, by decide,
    claim4_amended_lowercase_password_key_perm "key" (by decide) (by decide)⟩

/-- Claim C6 (confirmed): `process_text` always returns an even-length
string of uppercase letters; it keeps exactly the alphabetic characters of
the input, uppercased, and appends `'X'` precisely when their number is
odd. -/
theorem claim6_process_text_spec (text : String) :
    (process_text text).length % 2 = 0 ∧
    (∀ c ∈ (process_text text).data, c.isUpper = true ∧ c.isAlpha = true) ∧
    (process_text text).data =
      (text.data.filter Char.isAlpha).map Char.toUpper ++
        (if ((text.data.filter Char.isAlpha).map Char.toUpper).length % 2 = 1
          then ['X'] else []) := by
  have hmem : ∀ c ∈ (text.data.filter Char.isAlpha).map Char.toUpper,
      c.isUpper = true ∧ c.isAlpha = true := by
    intro c hc
    rcases List.mem_map.mp hc with ⟨c0, hc0, rfl⟩
    have ha : c0.isAlpha = true := (List.mem_filter.mp hc0).2
    exact ⟨char_toUpper_isUpper c0 ha, char_toUpper_isAlpha c0 ha⟩
  unfold process_text
  by_cases h : ((text.data.filter Char.isAlpha).map Char.toUpper).length % 2 = 1
  · rw [if_pos h, if_pos h]
    refine ⟨?_, ?_, rfl⟩
    · show ((text.data.filter Char.isAlpha).map Char.toUpper ++ ['X']).length % 2 = 0
      simp only [List.length_append, List.length_singleton]
      omega
    · intro c hc
      have hc2 : c ∈ (text.data.filter Char.isAlpha).map Char.toUpper ++ ['X'] := hc
      rcases List.mem_append.mp hc2 with h1 | h1
      · exact hmem c h1
      · rw [List.mem_singleton.mp h1]
        exact ⟨by decide, by decide⟩
  · rw [if_neg h, if_neg h]
    refine ⟨?_, hmem, by simp⟩
    show ((text.data.filter Char.isAlpha).map Char.toUpper).length % 2 = 0
    omega

end PlayfairRepo
